import Mathlib

/-!
Verification development for the stacktrace comparison tool
(compare_stacktraces.py).

The embedding models Python strings as lists of characters (`Str`) and a
raw stacktrace as its ordered list of lines (`RawTrace`); splitting a text
document into lines is the I/O boundary of the core.  Similarity scores are
modelled as exact rationals.
-/

/-- A Python string, modelled as a list of characters. -/
abbrev Str := List Char

/-- A raw stacktrace: the ordered list of its lines (the result of
Python splitlines on the raw text). -/
abbrev RawTrace := List Str

/-- Characters stripped by Python str.strip with no argument
(ASCII whitespace). -/
def isPySpace (c : Char) : Bool :=
  c == ' ' || c == '\t' || c == '\n' || c == '\r' || c == '\x0b' || c == '\x0c'

/-- Python str.strip: remove leading and trailing whitespace. -/
def pyStrip (s : Str) : Str :=
  ((s.dropWhile isPySpace).reverse.dropWhile isPySpace).reverse

/-- Python s.startswith on the literal marker for a stack frame line. -/
def startsWithAt (s : Str) : Bool :=
  match s with
  | 'a' :: 't' :: ' ' :: _ => true
  | _ => false

/-- Python s.split(c) for a one-character separator: splits at every
occurrence of the separator, keeping empty parts, always returning at
least one part. -/
def pySplit (c : Char) : Str → List Str
  | [] => [[]]
  | a :: rest =>
      if a = c then [] :: pySplit c rest
      else
        match pySplit c rest with
        | [] => [[a]]
        | h :: t => (a :: h) :: t

/-- Python s.rfind(c): index of the last occurrence of the character,
or -1 when the character does not occur. -/
def pyRfind (c : Char) : Str → Int
  | [] => -1
  | a :: rest =>
      let r := pyRfind c rest
      if 0 ≤ r then r + 1
      else if a = c then 0 else -1

/-- Embeds extract_frames: keep the stripped lines that start with the
frame marker, in source order. -/
def extract_frames (t : RawTrace) : List Str :=
  (t.map pyStrip).filter (fun l => startsWithAt l)

/-- Embeds extract_prefix: drop the three marker characters, truncate at
the first opening parenthesis, and if a dot occurs take the part before
the last dot, further truncated before the first dollar sign when one
occurs. -/
def extract_pfx (f : Str) : Str :=
  let line := f.drop 3
  let cam := (pySplit '(' line).headD []
  if '.' ∉ cam then cam
  else
    let full_cls := cam.take (pyRfind '.' cam).toNat
    if '$' ∈ full_cls then (pySplit '$' full_cls).headD []
    else full_cls

/-- The part of a string strictly before the last occurrence of a
character (meaningful when the character occurs). -/
def beforeLast (c : Char) (s : Str) : Str :=
  (((s.reverse).dropWhile (fun a => !decide (a = c))).drop 1).reverse

/-- The derivation of a frame key written exactly as the specification
words it: drop the three-character marker, truncate at the first opening
parenthesis, return the remainder when it has no dot, otherwise the part
before the last dot, truncated before the first dollar sign when the
class part contains one. -/
def extractPfxSpec (f : Str) : Str :=
  let line := f.drop 3
  let cam := line.takeWhile (fun a => !decide (a = '('))
  if '.' ∉ cam then cam
  else
    let full_cls := beforeLast '.' cam
    if '$' ∈ full_cls then full_cls.takeWhile (fun a => !decide (a = '$'))
    else full_cls

lemma pySplit_ne_nil (c : Char) (s : Str) : pySplit c s ≠ [] := by
  induction s with
  | nil => simp [pySplit]
  | cons a rest ih =>
      by_cases h : a = c
      · simp [pySplit, h]
      · simp only [pySplit, if_neg h]
        cases hr : pySplit c rest with
        | nil => simp
        | cons x xs => simp

lemma pySplit_headD (c : Char) (s : Str) :
    (pySplit c s).headD [] = s.takeWhile (fun a => !decide (a = c)) := by
  induction s with
  | nil => simp [pySplit]
  | cons a rest ih =>
      by_cases h : a = c
      · simp [pySplit, h, List.takeWhile]
      · simp only [pySplit, if_neg h]
        cases hr : pySplit c rest with
        | nil => exact absurd hr (pySplit_ne_nil c rest)
        | cons x xs =>
            rw [hr] at ih
            simp only [List.headD] at ih
            simp [List.takeWhile, h, ih]

lemma pyRfind_nonneg_iff (c : Char) (s : Str) : 0 ≤ pyRfind c s ↔ c ∈ s := by
  induction s with
  | nil => simp [pyRfind]
  | cons a rest ih =>
      simp only [pyRfind]
      by_cases hr : 0 ≤ pyRfind c rest
      · simp only [if_pos hr]
        constructor
        · intro _; exact List.mem_cons_of_mem a (ih.mp hr)
        · intro _; omega
      · simp only [if_neg hr]
        by_cases h : a = c
        · simp [h]
        · simp only [if_neg h]
          constructor
          · intro habs; omega
          · intro hm
            rcases List.mem_cons.mp hm with h1 | h2
            · exact absurd h1.symm h
            · exact absurd (ih.mpr h2) hr

lemma dropWhile_ne_nil_of_mem {c : Char} {l : Str} (h : c ∈ l) :
    l.dropWhile (fun a => !decide (a = c)) ≠ [] := by
  intro habs
  have := (List.dropWhile_eq_nil_iff).mp habs c h
  simp at this

lemma take_pyRfind (c : Char) (s : Str) (h : c ∈ s) :
    s.take (pyRfind c s).toNat = beforeLast c s := by
  induction s with
  | nil => cases h
  | cons a rest ih =>
      by_cases hm : c ∈ rest
      · have hr : 0 ≤ pyRfind c rest := (pyRfind_nonneg_iff c rest).mpr hm
        have hstep : pyRfind c (a :: rest) = pyRfind c rest + 1 := by
          simp [pyRfind, if_pos hr]
        have htn : (pyRfind c (a :: rest)).toNat = (pyRfind c rest).toNat + 1 := by
          rw [hstep]; omega
        rw [htn]
        simp only [List.take_succ_cons]
        rw [ih hm]
        have hne : rest.reverse.dropWhile (fun a => !decide (a = c)) ≠ [] :=
          dropWhile_ne_nil_of_mem (by simpa using hm)
        unfold beforeLast
        rw [List.reverse_cons]
        rw [List.dropWhile_append]
        simp only [List.isEmpty_iff, if_neg hne]
        rw [List.drop_append_of_le_length (by
          have hne2 : rest.reverse.dropWhile (fun a => !decide (a = c)) ≠ [] := by
            simpa using hne
          have := List.length_pos.mpr hne2
          omega)]
        simp
      · have ha : a = c := by
          rcases List.mem_cons.mp h with h1 | h2
          · exact h1.symm
          · exact absurd h2 hm
        have hr : ¬ 0 ≤ pyRfind c rest := by
          intro habs
          exact hm ((pyRfind_nonneg_iff c rest).mp habs)
        have hstep : pyRfind c (a :: rest) = 0 := by
          simp [pyRfind, if_neg hr, ha]
        rw [hstep]
        simp only [Int.toNat_zero, List.take_zero]
        have hall : rest.reverse.dropWhile (fun a => !decide (a = c)) = [] := by
          rw [List.dropWhile_eq_nil_iff]
          intro x hx
          have hxc : x ≠ c := by
            intro hxc
            exact hm (by rw [← hxc]; simpa using hx)
          simp [hxc]
        unfold beforeLast
        rw [List.reverse_cons]
        simp only [List.dropWhile_append, hall, List.isEmpty_nil, if_true]
        rw [ha]
        simp [List.dropWhile]

/-- Claim C2: the embedded extract_prefix agrees, on every frame line,
with the derivation as the specification words it (drop the marker,
truncate at the first opening parenthesis, keep everything when there is
no dot, otherwise the part before the last dot, truncated before the
first dollar sign when present); as a Lean function it is deterministic. -/
theorem c2_extract_prefix_spec (f : Str) : extract_pfx f = extractPfxSpec f := by
  unfold extract_pfx extractPfxSpec
  simp only [pySplit_headD]
  by_cases hdot : '.' ∈ (f.drop 3).takeWhile (fun a => !decide (a = '('))
  · rw [if_neg (fun hc => hc hdot), take_pyRfind '.' _ hdot]
    by_cases hd : '$' ∈ beforeLast '.' ((f.drop 3).takeWhile (fun a => !decide (a = '(')))
    · rw [if_pos hd, if_neg (fun hc => hc hdot)]
    · rw [if_neg hd, if_neg (fun hc => hc hdot)]
  · rw [if_pos hdot, if_pos hdot]

/-- Embeds the loop body of build_node_chain: walk the (already reversed)
frame list keeping the current run as the pair of the last key and its
count, flushing a finished run onto the node list when the key changes,
and flushing the final run at the end. -/
def chainLoop : List Str → Option Str → Nat → List (Str × Nat) → List (Str × Nat)
  | [], none, _, nodes => nodes
  | [], some p, count, nodes => nodes ++ [(p, count)]
  | f :: fs, lastP, count, nodes =>
      let p := extract_pfx f
      match lastP with
      | some q =>
          if p = q then chainLoop fs (some q) (count + 1) nodes
          else chainLoop fs (some p) 1 (nodes ++ [(q, count)])
      | none => chainLoop fs (some p) 1 nodes

/-- Embeds build_node_chain: extract the frames, reverse them so the
innermost call comes first, and run the grouping loop. -/
def build_node_chain (t : RawTrace) : List (Str × Nat) :=
  chainLoop (extract_frames t).reverse none 0 []

/-- The dynamic-programming table of lcs_length: entry (i, j) is the
value the Python loops store for the first i elements of seq1 and the
first j elements of seq2, with zero base row and column. -/
def dp (s1 s2 : List Str) : Nat → Nat → Nat
  | 0, _ => 0
  | _ + 1, 0 => 0
  | i + 1, j + 1 =>
      if s1.getD i [] = s2.getD j [] then dp s1 s2 i j + 1
      else max (dp s1 s2 i (j + 1)) (dp s1 s2 (i + 1) j)
  termination_by i j => (i, j)

/-- Embeds lcs_length: the bottom-right entry of the full table. -/
def lcs_length (seq1 seq2 : List Str) : Nat :=
  dp seq1 seq2 seq1.length seq2.length

/-- The ordered key-only projection of a node chain, as computed inside
compute_similarity. -/
def seqOf (nodes : List (Str × Nat)) : List Str :=
  nodes.map (fun pc => pc.1)

/-- Embeds compute_similarity: project both chains to their key lists,
return 0 when either is empty, otherwise the LCS length over the larger
length, as a percentage. -/
def compute_similarity (nodes_a nodes_b : List (Str × Nat)) : ℚ :=
  let seq_a := seqOf nodes_a
  let seq_b := seqOf nodes_b
  if seq_a = [] ∨ seq_b = [] then 0
  else (lcs_length seq_a seq_b : ℚ) / ((max seq_a.length seq_b.length : ℕ) : ℚ) * 100

/-- Expansion of a node chain: each key repeated its count times,
concatenated in chain order. -/
def expandChain (nodes : List (Str × Nat)) : List Str :=
  (nodes.map (fun pc => List.replicate pc.2 pc.1)).flatten

lemma expandChain_append (ns ms : List (Str × Nat)) :
    expandChain (ns ++ ms) = expandChain ns ++ expandChain ms := by
  simp [expandChain]

lemma chainLoop_expand (fs : List Str) : ∀ (lastP : Option Str) (count : Nat)
    (nodes : List (Str × Nat)),
    expandChain (chainLoop fs lastP count nodes)
      = expandChain nodes
        ++ (match lastP with
            | none => []
            | some p => List.replicate count p)
        ++ fs.map extract_pfx := by
  induction fs with
  | nil =>
      intro lastP count nodes
      cases lastP with
      | none => simp [chainLoop]
      | some p => simp [chainLoop, expandChain_append, expandChain]
  | cons f fs ih =>
      intro lastP count nodes
      cases lastP with
      | none =>
          simp only [chainLoop, ih, List.map_cons]
          simp [expandChain]
      | some q =>
          by_cases h : extract_pfx f = q
          · simp only [chainLoop, if_pos h, ih, List.map_cons]
            rw [List.replicate_succ', h]
            simp [List.append_assoc]
          · simp only [chainLoop, if_neg h, ih, List.map_cons]
            simp [expandChain_append, expandChain, List.append_assoc]

/-- Claim C4: reconstruction law.  Expanding the chain of a raw trace by
repeating each key count times in chain order and reversing gives back
exactly the ordered key list of the frames of the trace, top to bottom. -/
theorem c4_reconstruction (t : RawTrace) :
    (expandChain (build_node_chain t)).reverse
      = (extract_frames t).map extract_pfx := by
  unfold build_node_chain
  rw [chainLoop_expand]
  simp [expandChain, List.map_reverse]

lemma chainLoop_good (fs : List Str) : ∀ (lastP : Option Str) (count : Nat)
    (nodes : List (Str × Nat)),
    (∀ pc ∈ nodes, 1 ≤ pc.2) →
    List.Chain' (fun x y => x.1 ≠ y.1) nodes →
    (lastP = none → nodes = []) →
    (∀ q, lastP = some q → 1 ≤ count ∧ ∀ pc ∈ nodes.getLast?, pc.1 ≠ q) →
    (∀ pc ∈ chainLoop fs lastP count nodes, 1 ≤ pc.2)
      ∧ List.Chain' (fun x y => x.1 ≠ y.1) (chainLoop fs lastP count nodes) := by
  induction fs with
  | nil =>
      intro lastP count nodes h1 h2 _ h4
      cases lastP with
      | none => exact ⟨h1, h2⟩
      | some p =>
          obtain ⟨hc, hl⟩ := h4 p rfl
          simp only [chainLoop]
          constructor
          · intro pc hpc
            rcases List.mem_append.mp hpc with hm | hm
            · exact h1 pc hm
            · simp only [List.mem_singleton] at hm
              rw [hm]
              exact hc
          · rw [List.chain'_append]
            refine ⟨h2, List.chain'_singleton _, ?_⟩
            intro x hx y hy
            simp only [List.head?_cons, Option.mem_def, Option.some.injEq] at hy
            rw [← hy]
            exact hl x hx
  | cons f fs ih =>
      intro lastP count nodes h1 h2 h3 h4
      cases lastP with
      | none =>
          have hn : nodes = [] := h3 rfl
          subst hn
          simp only [chainLoop]
          refine ih (some (extract_pfx f)) 1 [] (by simp) (by simp) (by simp) ?_
          intro q hq
          refine ⟨le_refl 1, ?_⟩
          simp
      | some q =>
          by_cases h : extract_pfx f = q
          · simp only [chainLoop, if_pos h]
            refine ih (some q) (count + 1) nodes h1 h2 (by simp) ?_
            intro r hr
            obtain ⟨hc, hl⟩ := h4 q rfl
            cases hr
            exact ⟨by omega, hl⟩
          · simp only [chainLoop, if_neg h]
            obtain ⟨hc, hl⟩ := h4 q rfl
            refine ih (some (extract_pfx f)) 1 (nodes ++ [(q, count)]) ?_ ?_ (by simp) ?_
            · intro pc hpc
              rcases List.mem_append.mp hpc with hm | hm
              · exact h1 pc hm
              · simp only [List.mem_singleton] at hm
                rw [hm]
                exact hc
            · rw [List.chain'_append]
              refine ⟨h2, List.chain'_singleton _, ?_⟩
              intro x hx y hy
              simp only [List.head?_cons, Option.mem_def, Option.some.injEq] at hy
              rw [← hy]
              exact hl x hx
            · intro r hr
              cases hr
              refine ⟨le_refl 1, ?_⟩
              intro pc hpc
              rw [List.getLast?_concat] at hpc
              simp only [Option.mem_def, Option.some.injEq] at hpc
              rw [← hpc]
              exact fun habs => h habs.symm

/-- Claim C5: chain well-formedness.  Every chain built by
build_node_chain has all repeat counts at least 1 and no two adjacent
nodes with the same key. -/
theorem c5_chain_wellformed (t : RawTrace) :
    (∀ pc ∈ build_node_chain t, 1 ≤ pc.2)
      ∧ List.Chain' (fun x y => x.1 ≠ y.1) (build_node_chain t) := by
  unfold build_node_chain
  exact chainLoop_good _ none 0 [] (by simp) (by simp) (fun _ => rfl)
    (by intro q hq; cases hq)

lemma dp_comm (s1 s2 : List Str) : ∀ i j, dp s1 s2 i j = dp s2 s1 j i := by
  intro i
  induction i with
  | zero =>
      intro j
      cases j <;> simp [dp]
  | succ i ihi =>
      intro j
      induction j with
      | zero => simp [dp]
      | succ j ihj =>
          simp only [dp]
          by_cases h : s1.getD i [] = s2.getD j []
          · rw [if_pos h, if_pos h.symm, ihi j]
          · rw [if_neg h, if_neg (fun hc => h hc.symm), ihi (j + 1), ihj,
              Nat.max_comm]

lemma dp_self_diag (s : List Str) : ∀ i, dp s s i i = i := by
  intro i
  induction i with
  | zero => simp [dp]
  | succ i ih => simp [dp, ih]

lemma compute_similarity_comm (nodes_a nodes_b : List (Str × Nat)) :
    compute_similarity nodes_a nodes_b = compute_similarity nodes_b nodes_a := by
  unfold compute_similarity
  rcases eq_or_ne (seqOf nodes_a) [] with ha | ha
  · rcases eq_or_ne (seqOf nodes_b) [] with hb | hb <;> simp [ha, hb]
  · rcases eq_or_ne (seqOf nodes_b) [] with hb | hb
    · simp [ha, hb]
    · rw [if_neg (by simp [ha, hb]), if_neg (by simp [ha, hb])]
      rw [lcs_length, lcs_length, dp_comm,
        Nat.max_comm (seqOf nodes_a).length (seqOf nodes_b).length]

lemma compute_similarity_nonneg (nodes_a nodes_b : List (Str × Nat)) :
    0 ≤ compute_similarity nodes_a nodes_b := by
  unfold compute_similarity
  dsimp only
  split
  · exact le_refl 0
  · positivity

/-- Claim C1: compute_similarity is exactly the LCS length of the two
key-only projections over the larger projection length, times 100, where
the LCS length is the dynamic-programming table value with zero base row
and column; the result is exactly 0 when either projection is empty (the
divisor is positive otherwise, so no 0/0 arises); and repeat counts play
no role: chains with equal projections get equal similarity. -/
theorem c1_similarity_formula (nodes_a nodes_b : List (Str × Nat)) :
    (compute_similarity nodes_a nodes_b =
        if seqOf nodes_a = [] ∨ seqOf nodes_b = [] then 0
        else (lcs_length (seqOf nodes_a) (seqOf nodes_b) : ℚ)
            / ((max (seqOf nodes_a).length (seqOf nodes_b).length : ℕ) : ℚ) * 100)
    ∧ (∀ i, dp (seqOf nodes_a) (seqOf nodes_b) i 0 = 0
        ∧ dp (seqOf nodes_a) (seqOf nodes_b) 0 i = 0)
    ∧ (seqOf nodes_a ≠ [] → seqOf nodes_b ≠ [] →
        (0 : ℚ) < ((max (seqOf nodes_a).length (seqOf nodes_b).length : ℕ) : ℚ))
    ∧ (∀ nodes_c nodes_d, seqOf nodes_c = seqOf nodes_a →
        seqOf nodes_d = seqOf nodes_b →
        compute_similarity nodes_c nodes_d
          = compute_similarity nodes_a nodes_b) := by
  refine ⟨rfl, ?_, ?_, ?_⟩
  · intro i
    constructor
    · cases i <;> simp [dp]
    · cases i <;> simp [dp]
  · intro ha hb
    have h1 : 0 < max (seqOf nodes_a).length (seqOf nodes_b).length := by
      have := List.length_pos.mpr ha
      omega
    exact_mod_cast h1
  · intro nodes_c nodes_d hc hd
    unfold compute_similarity
    rw [hc, hd]

def exChainA : List (Str × Nat) := [(['a'], 2), (['b'], 1)]

def exChainB : List (Str × Nat) := [(['a'], 5)]

theorem c1_similarity_formula_witness :
    (0 : ℚ) < ((max (seqOf exChainA).length (seqOf exChainB).length : ℕ) : ℚ)
      ∧ compute_similarity [(['a'], 9), (['b'], 3)] [(['a'], 1)]
          = compute_similarity exChainA exChainB := by
  obtain ⟨-, -, h3, h4⟩ := c1_similarity_formula exChainA exChainB
  exact ⟨h3 (by decide) (by decide), h4 _ _ (by decide) (by decide)⟩

/-- Claim C7: similarity is symmetric in its two chains. -/
theorem c7_similarity_symm (nodes_a nodes_b : List (Str × Nat)) :
    compute_similarity nodes_a nodes_b = compute_similarity nodes_b nodes_a :=
  compute_similarity_comm nodes_a nodes_b

/-- Claim C8: a non-empty chain compared with itself scores exactly 100. -/
theorem c8_identity (nodes_a : List (Str × Nat)) (h : nodes_a ≠ []) :
    compute_similarity nodes_a nodes_a = 100 := by
  have hs : seqOf nodes_a ≠ [] := by
    simpa [seqOf] using h
  unfold compute_similarity
  rw [if_neg (by simp [hs])]
  rw [lcs_length, dp_self_diag, Nat.max_self]
  have hn : ((seqOf nodes_a).length : ℚ) ≠ 0 := by
    have := List.length_pos.mpr hs
    exact_mod_cast Nat.pos_iff_ne_zero.mp this
  rw [div_self hn, one_mul]

theorem c8_identity_witness :
    compute_similarity [(['a'], 1)] [(['a'], 1)] = 100 :=
  c8_identity [(['a'], 1)] (by decide)

/-- The StackTrace record used by the directory modes: raw text plus the
name of the file it came from. -/
structure StackTrace where
  stacktrace : RawTrace
  filename : Str

/-- Embeds compare_stacktraces: build both node chains and score them. -/
def compare_stacktraces (trace1 trace2 : RawTrace) :
    List (Str × Nat) × List (Str × Nat) × ℚ :=
  let nodes1 := build_node_chain trace1
  let nodes2 := build_node_chain trace2
  (nodes1, nodes2, compute_similarity nodes1 nodes2)

/-- The similarity component of compare_stacktraces on two raw traces. -/
def simRaw (t1 t2 : RawTrace) : ℚ :=
  (compare_stacktraces t1 t2).2.2

/-- Embeds compare_stacktrace_with_corpus: false on an empty corpus,
otherwise whether the running maximum similarity (started at 0) reaches
the threshold. -/
def compare_stacktrace_with_corpus (corpus : List RawTrace)
    (current_stacktrace : RawTrace) (threshold : ℚ) : Bool :=
  if corpus = [] then false
  else
    decide (threshold ≤ corpus.foldl
      (fun m corpus_trace => max m (simRaw current_stacktrace corpus_trace)) 0)

/-- One iteration of the sequential_compare loop on the running state
(corpus, distinct count, similar count): skip traces under 8 lines,
count a similar trace, or append a distinct one. -/
def seqStep (threshold : ℚ) (st : List RawTrace × Nat × Nat)
    (st_obj : StackTrace) : List RawTrace × Nat × Nat :=
  let corpus := st.1
  let distinct_count := st.2.1
  let similar_count := st.2.2
  if st_obj.stacktrace.length < 8 then (corpus, distinct_count, similar_count)
  else if compare_stacktrace_with_corpus corpus st_obj.stacktrace threshold then
    (corpus, distinct_count, similar_count + 1)
  else (corpus ++ [st_obj.stacktrace], distinct_count + 1, similar_count)

/-- Embeds sequential_compare: fold the loop body over the input,
starting from an empty corpus and zero counts. -/
def sequential_compare (all_stacktraces : List StackTrace) (threshold : ℚ) :
    List RawTrace × Nat × Nat :=
  all_stacktraces.foldl (seqStep threshold) ([], 0, 0)

lemma foldl_max_lt_iff (f : RawTrace → ℚ) (thr : ℚ) :
    ∀ (l : List RawTrace) (a : ℚ),
    l.foldl (fun m x => max m (f x)) a < thr ↔ a < thr ∧ ∀ x ∈ l, f x < thr := by
  intro l
  induction l with
  | nil => intro a; simp
  | cons x xs ih =>
      intro a
      simp only [List.foldl_cons, ih, max_lt_iff, List.mem_cons]
      constructor
      · rintro ⟨⟨h1, h2⟩, h3⟩
        refine ⟨h1, ?_⟩
        intro y hy
        rcases hy with rfl | hy
        · exact h2
        · exact h3 y hy
      · rintro ⟨h1, h2⟩
        exact ⟨⟨h1, h2 x (Or.inl rfl)⟩, fun y hy => h2 y (Or.inr hy)⟩

lemma simRaw_nonneg (t1 t2 : RawTrace) : 0 ≤ simRaw t1 t2 :=
  compute_similarity_nonneg _ _

lemma simRaw_comm (t1 t2 : RawTrace) : simRaw t1 t2 = simRaw t2 t1 :=
  compute_similarity_comm _ _

lemma corpus_check_false_iff (corpus : List RawTrace) (t : RawTrace) (thr : ℚ) :
    compare_stacktrace_with_corpus corpus t thr = false ↔
      (corpus = [] ∨ ∀ x ∈ corpus, simRaw t x < thr) := by
  unfold compare_stacktrace_with_corpus
  rcases eq_or_ne corpus [] with hc | hc
  · simp [hc]
  · rw [if_neg hc]
    simp only [decide_eq_false_iff_not, not_le]
    rw [foldl_max_lt_iff]
    constructor
    · rintro ⟨_, h1⟩
      exact Or.inr h1
    · rintro (h | h)
      · exact absurd h hc
      · refine ⟨?_, h⟩
        rcases List.exists_mem_of_ne_nil corpus hc with ⟨x, hx⟩
        exact lt_of_le_of_lt (simRaw_nonneg t x) (h x hx)

lemma seq_fold_pairwise (threshold : ℚ) :
    ∀ (ts : List StackTrace) (st : List RawTrace × Nat × Nat),
    List.Pairwise (fun x y => simRaw x y < threshold) st.1 →
    List.Pairwise (fun x y => simRaw x y < threshold)
      (ts.foldl (seqStep threshold) st).1 := by
  intro ts
  induction ts with
  | nil => intro st h; exact h
  | cons t ts ih =>
      intro st h
      rw [List.foldl_cons]
      apply ih
      obtain ⟨corpus, d, s⟩ := st
      unfold seqStep
      dsimp only
      by_cases hlen : t.stacktrace.length < 8
      · rw [if_pos hlen]; exact h
      · rw [if_neg hlen]
        cases hbc : compare_stacktrace_with_corpus corpus t.stacktrace threshold with
        | true => rw [if_pos rfl]; exact h
        | false =>
            rw [if_neg Bool.false_ne_true]
            dsimp only at h
            rw [List.pairwise_append]
            refine ⟨h, List.pairwise_singleton _ _, ?_⟩
            intro x hx y hy
            simp only [List.mem_singleton] at hy
            subst hy
            rcases (corpus_check_false_iff corpus t.stacktrace threshold).mp hbc
              with hc | hc
            · rw [hc] at hx; cases hx
            · rw [simRaw_comm]
              exact hc x hx

/-- Claim C3: a candidate with at least 8 lines is appended to the corpus
with the distinct count incremented exactly when the corpus is empty or
every current member scores strictly below the threshold (equivalently,
the maximum similarity does); otherwise the similar count is incremented
and the corpus is unchanged.  Consequently every pair of corpus members
of sequential_compare, in admission order, scores strictly below the
threshold. -/
theorem c3_corpus_admission (threshold : ℚ) (all_stacktraces : List StackTrace) :
    (∀ (corpus : List RawTrace) (d s : Nat) (st_obj : StackTrace),
        ¬ st_obj.stacktrace.length < 8 →
        ((seqStep threshold (corpus, d, s) st_obj
              = (corpus ++ [st_obj.stacktrace], d + 1, s)
            ↔ corpus = [] ∨ ∀ x ∈ corpus, simRaw st_obj.stacktrace x < threshold)
          ∧ (¬ (corpus = []
                ∨ ∀ x ∈ corpus, simRaw st_obj.stacktrace x < threshold) →
              seqStep threshold (corpus, d, s) st_obj = (corpus, d, s + 1))))
    ∧ List.Pairwise (fun x y => simRaw x y < threshold)
        (sequential_compare all_stacktraces threshold).1 := by
  constructor
  · intro corpus d s st_obj hlen
    have key := corpus_check_false_iff corpus st_obj.stacktrace threshold
    unfold seqStep
    dsimp only
    rw [if_neg hlen]
    cases hbc : compare_stacktrace_with_corpus corpus st_obj.stacktrace threshold
      with
    | false =>
        rw [if_neg Bool.false_ne_true]
        refine ⟨⟨fun _ => key.mp hbc, fun _ => rfl⟩, ?_⟩
        intro hnr
        exact absurd (key.mp hbc) hnr
    | true =>
        rw [if_pos rfl]
        refine ⟨⟨?_, ?_⟩, fun _ => rfl⟩
        · intro heq
          exfalso
          have h2 := congrArg (fun p => p.2.1) heq
          simp only at h2
          omega
        · intro hr
          have hfalse := key.mpr hr
          rw [hbc] at hfalse
          cases hfalse
  · unfold sequential_compare
    exact seq_fold_pairwise threshold all_stacktraces ([], 0, 0) List.Pairwise.nil

def exTrace8 : RawTrace :=
  ["at a.b.C.m(C.java:1)".toList, "x".toList, "x".toList, "x".toList,
   "x".toList, "x".toList, "x".toList, "x".toList]

def exST : StackTrace := ⟨exTrace8, "1_1_stacktrace.txt".toList⟩

theorem c3_corpus_admission_witness :
    seqStep 80 ([], 0, 0) exST = ([exTrace8], 1, 0) := by
  have h := (c3_corpus_admission 80 []).1 [] 0 0 exST (by decide)
  exact h.1.mpr (Or.inl rfl)

/-- Claim C10: with a positive threshold, a candidate of at least 8 lines
none of which is a frame line has an empty chain, scores 0 against every
trace, and is always admitted as distinct, even when the corpus already
holds an identical trace. -/
theorem c10_frameless_distinct (threshold : ℚ) (corpus : List RawTrace)
    (d s : Nat) (st_obj : StackTrace)
    (hthr : 0 < threshold)
    (hlen : 8 ≤ st_obj.stacktrace.length)
    (hnoat : ∀ l ∈ st_obj.stacktrace, startsWithAt (pyStrip l) = false) :
    (∀ x : RawTrace, simRaw st_obj.stacktrace x = 0)
      ∧ seqStep threshold (corpus, d, s) st_obj
          = (corpus ++ [st_obj.stacktrace], d + 1, s) := by
  have hframes : extract_frames st_obj.stacktrace = [] := by
    unfold extract_frames
    apply List.filter_eq_nil_iff.mpr
    intro l hl
    rcases List.mem_map.mp hl with ⟨l0, hl0, rfl⟩
    simp [hnoat l0 hl0]
  have hchain : build_node_chain st_obj.stacktrace = [] := by
    unfold build_node_chain
    rw [hframes]
    rfl
  have hsim : ∀ x : RawTrace, simRaw st_obj.stacktrace x = 0 := by
    intro x
    unfold simRaw compare_stacktraces
    dsimp only
    rw [hchain]
    simp [compute_similarity, seqOf]
  refine ⟨hsim, ?_⟩
  unfold seqStep
  dsimp only
  rw [if_neg (by omega)]
  have hfalse : compare_stacktrace_with_corpus corpus st_obj.stacktrace
      threshold = false := by
    apply (corpus_check_false_iff _ _ _).mpr
    refine Or.inr ?_
    intro x _
    rw [hsim x]
    exact hthr
  rw [hfalse]
  simp

def exNoAt : RawTrace := List.replicate 8 "error line".toList

theorem c10_frameless_distinct_witness :
    simRaw exNoAt exNoAt = 0
      ∧ seqStep 80 ([exNoAt], 0, 0) ⟨exNoAt, "1_2_stacktrace.txt".toList⟩
          = ([exNoAt, exNoAt], 1, 0) := by
  have h := c10_frameless_distinct 80 [exNoAt] 0 0
    ⟨exNoAt, "1_2_stacktrace.txt".toList⟩ (by norm_num) (by decide) (by decide)
  exact ⟨h.1 exNoAt, h.2⟩

/-- Round half to even at two decimal places: the rational-level model of
Python round(x, 2) as applied to stored similarities. -/
def roundHalfEven (q : ℚ) : ℤ :=
  let f := q.floor
  let r := q - (f : ℚ)
  if r < 1 / 2 then f
  else if 1 / 2 < r then f + 1
  else if f % 2 = 0 then f else f + 1

/-- Python round(x, 2) on similarity values, at the rational level. -/
def pyRound2 (q : ℚ) : ℚ := (roundHalfEven (q * 100) : ℚ) / 100

/-- One stored comparison record of the pairwise mode. -/
structure CompRec where
  comparison_id : Nat
  file1 : Str
  file2 : Str
  similarity : ℚ

/-- Embeds the inner loop of the pairwise mode for a fixed first trace:
walk the later traces, and for each one from a different file append a
record, bump the comparison count, and bump the above-threshold count
when the similarity reaches the threshold; the locals of the loop body
are inlined.  State is (all_results, comparison_count, above_count). -/
def pairInner (threshold : ℚ) (st1 : StackTrace) :
    List StackTrace → List CompRec × Nat × Nat → List CompRec × Nat × Nat
  | [], st => st
  | st2 :: rest, (all_results, comparison_count, above_count) =>
      if st1.filename ≠ st2.filename then
        pairInner threshold st1 rest
          (all_results ++ [⟨comparison_count + 1, st1.filename, st2.filename,
              pyRound2 ((compare_stacktraces st1.stacktrace st2.stacktrace).2.2)⟩],
            comparison_count + 1,
            if threshold ≤ (compare_stacktraces st1.stacktrace st2.stacktrace).2.2
            then above_count + 1 else above_count)
      else pairInner threshold st1 rest (all_results, comparison_count, above_count)

/-- Embeds the outer loop of the pairwise mode: index i runs over the
collection, index j over the later elements. -/
def pairOuter (threshold : ℚ) :
    List StackTrace → List CompRec × Nat × Nat → List CompRec × Nat × Nat
  | [], st => st
  | st1 :: rest, st => pairOuter threshold rest (pairInner threshold st1 rest st)

/-- The pairwise comparison mode on a loaded, sorted collection. -/
def pairwiseScan (ts : List StackTrace) (threshold : ℚ) :
    List CompRec × Nat × Nat :=
  pairOuter threshold ts ([], 0, 0)

/-- All ordered pairs (i, j) with i before j, in scan order. -/
def allPairs : List StackTrace → List (StackTrace × StackTrace)
  | [] => []
  | x :: rest => rest.map (fun y => (x, y)) ++ allPairs rest

/-- The pairs the specification says are compared: those whose source
labels differ. -/
def crossPairs (ts : List StackTrace) : List (StackTrace × StackTrace) :=
  (allPairs ts).filter (fun p => decide (p.1.filename ≠ p.2.filename))

/-- The id-free content of a stored record. -/
def projRec (r : CompRec) : Str × Str × ℚ := (r.file1, r.file2, r.similarity)

/-- The record the specification prescribes for a compared pair. -/
def pairSpec (p : StackTrace × StackTrace) : Str × Str × ℚ :=
  (p.1.filename, p.2.filename, pyRound2 (simRaw p.1.stacktrace p.2.stacktrace))

/-- The compared pairs contributed by one fixed first trace. -/
def innerCross (st1 : StackTrace) (rest : List StackTrace) :
    List (StackTrace × StackTrace) :=
  (rest.filter (fun y => decide (st1.filename ≠ y.filename))).map
    (fun y => (st1, y))

lemma pairInner_proj (threshold : ℚ) (st1 : StackTrace) :
    ∀ (rest : List StackTrace) (rs : List CompRec) (cc ac : Nat),
    ((pairInner threshold st1 rest (rs, cc, ac)).1.map projRec
        = rs.map projRec ++ (innerCross st1 rest).map pairSpec)
    ∧ (pairInner threshold st1 rest (rs, cc, ac)).2.1
        = cc + (innerCross st1 rest).length
    ∧ (pairInner threshold st1 rest (rs, cc, ac)).2.2
        = ac + ((innerCross st1 rest).filter
            (fun p => decide (threshold ≤ simRaw p.1.stacktrace p.2.stacktrace))).length := by
  intro rest
  induction rest with
  | nil =>
      intro rs cc ac
      simp [pairInner, innerCross]
  | cons st2 rest ih =>
      intro rs cc ac
      simp only [pairInner]
      by_cases h : st1.filename = st2.filename
      · rw [if_neg (fun hc => hc h)]
        have hic : innerCross st1 (st2 :: rest) = innerCross st1 rest := by
          simp [innerCross, List.filter_cons, h]
        rw [hic]
        exact ih rs cc ac
      · rw [if_pos h]
        have hic : innerCross st1 (st2 :: rest)
            = (st1, st2) :: innerCross st1 rest := by
          simp [innerCross, List.filter_cons, h]
        rw [hic]
        obtain ⟨ih1, ih2, ih3⟩ := ih
          (rs ++ [⟨cc + 1, st1.filename, st2.filename,
            pyRound2 ((compare_stacktraces st1.stacktrace st2.stacktrace).2.2)⟩])
          (cc + 1)
          (if threshold ≤ (compare_stacktraces st1.stacktrace st2.stacktrace).2.2
           then ac + 1 else ac)
        refine ⟨?_, ?_, ?_⟩
        · rw [ih1]
          simp [projRec, pairSpec, simRaw]
        · rw [ih2, List.length_cons]
          omega
        · rw [ih3]
          simp only [List.filter_cons, simRaw]
          by_cases hts :
            threshold ≤ (compare_stacktraces st1.stacktrace st2.stacktrace).2.2
          · rw [if_pos hts, if_pos (by simpa using hts), List.length_cons]
            omega
          · rw [if_neg hts, if_neg (by simpa using hts)]

lemma filter_map_pair (x : StackTrace) (l : List StackTrace) :
    (l.map (fun y => (x, y))).filter
        (fun p => decide (p.1.filename ≠ p.2.filename))
      = (l.filter (fun y => decide (x.filename ≠ y.filename))).map
          (fun y => (x, y)) := by
  induction l with
  | nil => rfl
  | cons y ys ih =>
      simp only [List.map_cons, List.filter_cons]
      by_cases h : x.filename = y.filename
      · rw [if_neg (by simp [h]), if_neg (by simp [h]), ih]
      · rw [if_pos (by simp [h]), if_pos (by simp [h]), List.map_cons, ih]

lemma crossPairs_cons (x : StackTrace) (rest : List StackTrace) :
    crossPairs (x :: rest) = innerCross x rest ++ crossPairs rest := by
  simp only [crossPairs, innerCross]
  rw [show allPairs (x :: rest)
      = rest.map (fun y => (x, y)) ++ allPairs rest from rfl]
  rw [List.filter_append, filter_map_pair]

lemma pairOuter_proj (threshold : ℚ) :
    ∀ (ts : List StackTrace) (rs : List CompRec) (cc ac : Nat),
    ((pairOuter threshold ts (rs, cc, ac)).1.map projRec
        = rs.map projRec ++ (crossPairs ts).map pairSpec)
    ∧ (pairOuter threshold ts (rs, cc, ac)).2.1 = cc + (crossPairs ts).length
    ∧ (pairOuter threshold ts (rs, cc, ac)).2.2
        = ac + ((crossPairs ts).filter
            (fun p => decide (threshold ≤ simRaw p.1.stacktrace p.2.stacktrace))).length := by
  intro ts
  induction ts with
  | nil =>
      intro rs cc ac
      simp [pairOuter, crossPairs, allPairs]
  | cons x rest ih =>
      intro rs cc ac
      simp only [pairOuter]
      obtain ⟨i1, i2, i3⟩ := pairInner_proj threshold x rest rs cc ac
      rcases hst : pairInner threshold x rest (rs, cc, ac) with ⟨rs2, cc2, ac2⟩
      rw [hst] at i1 i2 i3
      simp only at i1 i2 i3
      obtain ⟨o1, o2, o3⟩ := ih rs2 cc2 ac2
      rw [crossPairs_cons]
      refine ⟨?_, ?_, ?_⟩
      · rw [o1, i1]
        simp [List.map_append, List.append_assoc]
      · rw [o2, i2, List.length_append]
        omega
      · rw [o3, i3, List.filter_append, List.length_append]
        omega

/-- Claim C6 (amended: the above-threshold tally uses greater-or-equal,
not strictly-greater): for every pair i before j in the collection, the
scan stores a record exactly for the pairs with differing filenames (in
scan order, with the label pair and the rounded similarity the
specification prescribes), the comparison count equals the number of
such pairs, and the tally counts those whose similarity is at least the
threshold; same-filename pairs contribute no record. -/
theorem c6_pairwise_scan (ts : List StackTrace) (threshold : ℚ) :
    ((pairwiseScan ts threshold).1.map projRec = (crossPairs ts).map pairSpec)
    ∧ (pairwiseScan ts threshold).2.1 = (crossPairs ts).length
    ∧ (pairwiseScan ts threshold).2.2
        = ((crossPairs ts).filter
            (fun p => decide (threshold ≤ simRaw p.1.stacktrace p.2.stacktrace))).length := by
  obtain ⟨h1, h2, h3⟩ := pairOuter_proj threshold ts [] 0 0
  unfold pairwiseScan
  exact ⟨by simpa using h1, by simpa using h2, by simpa using h3⟩

def exTraceP1 : RawTrace :=
  ["at b.x.m(F.java:1)".toList, "at a.x.m(F.java:2)".toList]

def exTraceP2 : RawTrace :=
  ["at c.x.m(F.java:1)".toList, "at a.x.m(F.java:2)".toList]

def exSA : StackTrace := ⟨exTraceP1, "1_1_stacktrace.txt".toList⟩

def exSB : StackTrace := ⟨exTraceP2, "1_2_stacktrace.txt".toList⟩

/-- Claim C6 counterexample: the two example traces from different files
score exactly 50, which does not strictly exceed the threshold 50, yet
the code tallies the pair in its above-threshold count — so the tally
does not count the similarities exceeding the threshold. -/
theorem c6_exceed_counterexample :
    simRaw exSA.stacktrace exSB.stacktrace = 50
    ∧ ¬ (50 : ℚ) < 50
    ∧ (pairwiseScan [exSA, exSB] 50).2.2 = 1 := by
  have hA : build_node_chain exSA.stacktrace
      = [("a.x".toList, 1), ("b.x".toList, 1)] := by decide
  have hB : build_node_chain exSB.stacktrace
      = [("a.x".toList, 1), ("c.x".toList, 1)] := by decide
  have hl : lcs_length [['a', '.', 'x'], ['b', '.', 'x']]
      [['a', '.', 'x'], ['c', '.', 'x']] = 1 := by
    simp [lcs_length, dp, List.getD]
  have hsim : simRaw exSA.stacktrace exSB.stacktrace = 50 := by
    unfold simRaw compare_stacktraces
    dsimp only
    rw [hA, hB]
    simp [compute_similarity, seqOf, hl]
    norm_num [hl]
  have hsim2 : (compare_stacktraces exSA.stacktrace exSB.stacktrace).2.2 = 50 :=
    hsim
  have hf : exSA.filename ≠ exSB.filename := by decide
  refine ⟨hsim, by norm_num, ?_⟩
  simp [pairwiseScan, pairOuter, pairInner, hf, hsim2]

/-- The parsed command-line arguments of the tool: the two single-trace
paths, the directory, the similarity threshold (default 80), the output
path, and the sequential-mode flag. -/
structure Args where
  trace1 : Option Str
  trace2 : Option Str
  trace_dir : Option Str
  threshold : ℚ
  output : Str
  seq : Bool

/-- Embeds the argument validation the program actually performs before
comparing: with a directory, reject when a single-trace path is also
given; without one, require both single-trace paths.  Directory
existence and file discovery are filesystem effects outside the
embedding.  No check inspects the threshold, and the 8-line minimum is a
hardcoded constant, not an argument. -/
def validateArgs (a : Args) : Except String Unit :=
  match a.trace_dir with
  | some _ =>
      if a.trace1.isSome || a.trace2.isSome then
        Except.error "trace_dir cannot be used with trace1 or trace2"
      else Except.ok ()
  | none =>
      match a.trace1, a.trace2 with
      | some _, some _ => Except.ok ()
      | _, _ =>
          Except.error "Either trace1 and trace2, or trace_dir must be provided"

/-- Claim C9 counterexample: a threshold of 150 — outside the range 0 to
100 — passes argument validation, and the comparison pipeline then runs
with it (here the sequential mode processes a trace and counts it
distinct), so ill-formed configuration is not rejected at the boundary. -/
theorem c9_no_rejection_counterexample :
    validateArgs ⟨none, none, some "traces".toList, 150, "out.json".toList, true⟩
        = Except.ok ()
    ∧ ¬ ((150 : ℚ) ≤ 100)
    ∧ (sequential_compare [exST] 150).2.1 = 1 := by
  refine ⟨rfl, by norm_num, by decide⟩

/-- Claim C9 amended: the program performs no threshold validation at
all: the outcome of argument validation is independent of the threshold
value, so any threshold — inside or outside the range 0 to 100 — is
accepted and then used unchanged (no clamping); the minimum line count
is the hardcoded constant 8, not a configurable value. -/
theorem c9_validation_ignores_threshold (t1 t2 td : Option Str) (o : Str)
    (sq : Bool) (thrA thrB : ℚ) :
    validateArgs ⟨t1, t2, td, thrA, o, sq⟩
      = validateArgs ⟨t1, t2, td, thrB, o, sq⟩ := by
  cases td <;> rfl
